import Mathlib

/- Verification development for converter.py, the selective-translation content
pipeline: traditional→simplified script conversion plus optional machine
translation of English fragments inside Android strings.xml resources.

The embedding works over `List Char`.  Python regular expressions used by the
source are deterministic on the relevant inputs (each quantifier is followed by
a character it can never match), so they are embedded as direct scanners; a
comment above each definition names the source construct it embeds. -/

namespace Converter

/-! ## Character classes and Python string primitives -/

/-- Whitespace class of Python's `str.strip()` and of the regex class `\s`
(ASCII part; the rare non-ASCII Unicode spaces are not modelled). -/
def pySpaceChar (c : Char) : Bool :=
  c == ' ' || c == '\t' || c == '\n' || c == '\r' || c == '\x0b' || c == '\x0c'

/-- The regex class `[a-zA-Z]` used by `auto_en_to_zh` to detect English text. -/
def isAsciiAlphaChar (c : Char) : Bool :=
  ('a' ≤ c && c ≤ 'z') || ('A' ≤ c && c ≤ 'Z')

/-- Case-insensitive character comparison, for patterns compiled with
`re.IGNORECASE`. -/
def ciEq (a b : Char) : Bool := a.toLower == b.toLower

/-- Python `str.strip()`: drop leading and trailing whitespace. -/
def pyStripL (l : List Char) : List Char :=
  ((l.dropWhile pySpaceChar).reverse.dropWhile pySpaceChar).reverse

/-! ## has_placeholder (converter.py lines 64-74) -/

/-- `re.search(r'%[0-9]*[sd]', text)`: a `%`, a (maximal) digit run, then `s`
or `d`.  Backtracking cannot help the regex here because `s`/`d` are not
digits, so the greedy scan below is exact. -/
def searchPctSD : List Char → Bool
  | [] => false
  | '%' :: rest =>
    (match rest.dropWhile Char.isDigit with
     | c :: _ => c == 's' || c == 'd'
     | [] => false) || searchPctSD rest
  | _ :: rest => searchPctSD rest

/-- `re.search(r'\{[^}]+}', text)`: an opening brace, at least one non-brace
character, then a closing brace somewhere later. -/
def searchBrace : List Char → Bool
  | '{' :: c :: rest => (!(c == '}') && (c :: rest).contains '}') || searchBrace (c :: rest)
  | _ :: rest => searchBrace rest
  | [] => false

/-- Plain substring search, for the literal patterns of `has_placeholder`. -/
def containsSub (pat : List Char) : List Char → Bool
  | [] => pat.isEmpty
  | c :: rest => pat.isPrefixOf (c :: rest) || containsSub pat rest

def atStringPat : List Char := ['@', 's', 't', 'r', 'i', 'n', 'g', '/']
def atAndroidPat : List Char := ['@', 'a', 'n', 'd', 'r', 'o', 'i', 'd', ':']
def escNPat : List Char := ['\\', 'n']
def escTPat : List Char := ['\\', 't']
def escBSPat : List Char := ['\\', '\\']
def httpPat : List Char := ['h', 't', 't', 'p', ':', '/', '/']
def httpsPat : List Char := ['h', 't', 't', 'p', 's', ':', '/', '/']

/-- `has_placeholder` (converter.py lines 64-74): true when the text matches
any of the protected patterns `%[0-9]*[sd]`, `\{[^}]+}`, `@string/`,
`@android:`, `\\n|\\t|\\\\`, `https?://`. -/
def has_placeholder (text : List Char) : Bool :=
  searchPctSD text || searchBrace text ||
  containsSub atStringPat text || containsSub atAndroidPat text ||
  containsSub escNPat text || containsSub escTPat text || containsSub escBSPat text ||
  containsSub httpPat text || containsSub httpsPat text

/-! ## Script converter (OpenCC t2s) -/

/-- A traditional→simplified character table. -/
abbrev T2STable := List (Char × Char)

/-- Modelled from the spec: the repository delegates script conversion to the
external OpenCC library (`t2s = OpenCC('t2s')`, converter.py line 24) whose
character table is not part of the repository.  Per spec §4.1 and the glossary,
conversion is a character-level substitution: a character found in the table is
replaced by its simplified variant, every other character is unchanged. -/
def lookupT (tbl : T2STable) (c : Char) : Char :=
  match tbl.find? (fun p => p.1 == c) with
  | some p => p.2
  | none => c

/-- `t2s.convert`, modelled from the spec as `lookupT` applied per character. -/
def convertL (tbl : T2STable) (l : List Char) : List Char := l.map (lookupT tbl)

/-- A character is traditional exactly when the table has an entry for it. -/
def isTrad (tbl : T2STable) (c : Char) : Bool := (tbl.find? (fun p => p.1 == c)).isSome

/-- Well-formedness of a t2s table, from the spec §4.1 rationale that input
already in simplified script is returned unchanged: the simplified output side
of the table is itself a fixed point of conversion. -/
def TableWF (tbl : T2STable) : Prop := ∀ p ∈ tbl, lookupT tbl p.2 = p.2

/-- A tiny concrete t2s table with real traditional→simplified pairs, used to
evaluate the development on closed inputs. -/
def exTbl : T2STable := [('國', '国'), ('體', '体')]

/-! ## auto_en_to_zh (converter.py lines 76-103) -/

/-- A translation provider: `argostranslate.translate.translate` specialised to
en→zh.  `none` models a raised exception. -/
abbrev Translator := List Char → Option (List Char)

/-- The `>Move` marker handling: `if stripped.startswith(">"): stripped = stripped[1:]`. -/
def dropGtMark : List Char → List Char
  | '>' :: rest => rest
  | l => l

/-- Whether a list starts with the `>` marker. -/
def headGt : List Char → Bool
  | '>' :: _ => true
  | _ => false

/-- The `stripped` local of `auto_en_to_zh` after marker removal. -/
def strippedOf (text : List Char) : List Char := dropGtMark (pyStripL text)

/-- `auto_en_to_zh` (converter.py lines 76-103).  The source initialises
`prefix = ">"` and reassigns the same value `">"` inside the marker branch, so
the prefix prepended on success is always `>`.  The `try/except` around the
provider call is the `match` on the `Option`: `none` (a raised error) falls
back to the original text. -/
def auto_en_to_zh (avail : Bool) (tr : Translator) (text : List Char) : List Char :=
  if avail = false then text
  else if (strippedOf text).isEmpty then text
  else if has_placeholder (strippedOf text) then text
  else if (strippedOf text).any isAsciiAlphaChar = false then text
  else
    match tr (strippedOf text) with
    | some t => '>' :: t
    | none => text

/-! ## translate_xml_strings (converter.py lines 105-125)

The pattern `<string\s+name="([^"]+)"\s*>(.*?)</string>` (DOTALL, IGNORECASE)
is embedded as an anchored matcher tried at every position, exactly the
semantics of `re.sub`: leftmost non-overlapping matches, the lazy `(.*?)`
taking the shortest span up to the first case-insensitive `</string>`.
Each quantifier in the pattern is followed by a character it can never match
(`\s+` by `n`, `[^"]+` by `"`, `\s*` by `>`), so the deterministic scan below
is exact. -/

/-- Strip `pat` case-insensitively from the front of a list, returning the
rest on success. -/
def ciStripPat : List Char → List Char → Option (List Char)
  | [], s => some s
  | _ :: _, [] => none
  | p :: ps, c :: cs => if ciEq p c then ciStripPat ps cs else none

def ltStringPat : List Char := ['<', 's', 't', 'r', 'i', 'n', 'g']
def nameEqPat : List Char := ['n', 'a', 'm', 'e', '=', '"']
def closeTag : List Char := ['<', '/', 's', 't', 'r', 'i', 'n', 'g', '>']

/-- The lazy `(.*?)</string>` part: split at the first case-insensitive
occurrence of `</string>`, returning the value and the rest of the input. -/
def splitAtClose : List Char → Option (List Char × List Char)
  | [] => none
  | c :: rest =>
    match ciStripPat closeTag (c :: rest) with
    | some r => some ([], r)
    | none =>
      match splitAtClose rest with
      | some (v, r) => some (c :: v, r)
      | none => none

/-- `<string` (case-insensitive). -/
def afterOpen (s : List Char) : Option (List Char) := ciStripPat ltStringPat s

/-- `\s+` : at least one whitespace character. -/
def afterWs1 (r : List Char) : Option (List Char) :=
  if (r.takeWhile pySpaceChar).isEmpty then none else some (r.dropWhile pySpaceChar)

/-- `name="([^"]+)"` : the literal attribute, the captured name, the closing
quote. -/
def afterName (r : List Char) : Option (List Char × List Char) :=
  match ciStripPat nameEqPat r with
  | none => none
  | some r3 =>
    if (r3.takeWhile (fun c => c != '"')).isEmpty then none
    else
      match r3.dropWhile (fun c => c != '"') with
      | [] => none
      | _ :: r5 => some (r3.takeWhile (fun c => c != '"'), r5)

/-- `\s*>` : optional whitespace then the closing angle of the opening tag. -/
def afterGt (r5 : List Char) : Option (List Char) :=
  match r5.dropWhile pySpaceChar with
  | c :: r7 => if c = '>' then some r7 else none
  | [] => none

/-- Anchored match of the full pattern at the head of `s`; on success returns
the captured name, the captured raw value and the input after the match. -/
def tryMatchString (s : List Char) : Option (List Char × List Char × List Char) :=
  match afterOpen s with
  | none => none
  | some r1 =>
    match afterWs1 r1 with
    | none => none
    | some r2 =>
      match afterName r2 with
      | none => none
      | some (nm, r5) =>
        match afterGt r5 with
        | none => none
        | some r7 =>
          match splitAtClose r7 with
          | none => none
          | some (v, r) => some (nm, v, r)

/-- The body of `replace` (converter.py lines 107-121) applied to the raw
captured value: strip it, try en→zh translation, convert the result to
simplified script, and if that round trip left the stripped value unchanged
convert the stripped value itself. -/
def processValue (tbl : T2STable) (avail : Bool) (tr : Translator) (rawVal : List Char) :
    List Char :=
  if convertL tbl (auto_en_to_zh avail tr (pyStripL rawVal)) = pyStripL rawVal
  then convertL tbl (pyStripL rawVal)
  else convertL tbl (auto_en_to_zh avail tr (pyStripL rawVal))

/-- Pieces of the replacement template `<string name="{name}">{translated}</string>`. -/
def outOpen : List Char := ['<', 's', 't', 'r', 'i', 'n', 'g', ' ', 'n', 'a', 'm', 'e', '=', '"']
def outMid : List Char := ['"', '>']

/-- The `re.sub` scan with explicit fuel (one unit per input position; a match
always consumes at least the closing tag, so `length` fuel suffices and the
fuel value is irrelevant beyond it, see `xmlScanF_fuel`). -/
def xmlScanF (tbl : T2STable) (avail : Bool) (tr : Translator) : Nat → List Char → List Char
  | _, [] => []
  | 0, c :: rest => c :: rest
  | fuel + 1, c :: rest =>
    match tryMatchString (c :: rest) with
    | some (nm, v, r) =>
      outOpen ++ (nm ++ (outMid ++ (processValue tbl avail tr v ++
        (closeTag ++ xmlScanF tbl avail tr fuel r))))
    | none => c :: xmlScanF tbl avail tr fuel rest

/-- `translate_xml_strings` (converter.py lines 105-125). -/
def translate_xml_strings (tbl : T2STable) (avail : Bool) (tr : Translator)
    (content : List Char) : List Char :=
  xmlScanF tbl avail tr content.length content

/-- A source-shaped `<string>` element: `<string` + whitespace + `name="` +
name + `"` + whitespace + `>` + value + `</string>`. -/
def elemL (ws1 nm ws2 val : List Char) : List Char :=
  ltStringPat ++ (ws1 ++ (nameEqPat ++ (nm ++ ('"' :: (ws2 ++ ('>' :: (val ++ closeTag)))))))

/-! ## File-level processing and path handling (converter.py lines 127-203) -/

/-- Split a path on `/` separators (the list of raw components). -/
def splitSlash : List Char → List (List Char)
  | [] => [[]]
  | c :: rest =>
    if c = '/' then [] :: splitSlash rest
    else
      match splitSlash rest with
      | [] => [[c]]
      | h :: t => (c :: h) :: t

/-- `pathlib.Path(p).name`: the last non-empty component. -/
def pathNameL (p : List Char) : List Char :=
  ((splitSlash p).filter (fun x => !x.isEmpty)).getLastD []

/-- Index of the last `.` in a list, when present. -/
def lastIdxOfDot : List Char → Option Nat
  | [] => none
  | c :: rest =>
    match lastIdxOfDot rest with
    | some i => some (i + 1)
    | none => if c = '.' then some 0 else none

/-- `pathlib` stem of a bare file name: `name[:i]` for the last dot index `i`
when `0 < i < len(name) - 1`, otherwise the whole name. -/
def stemOfName (n : List Char) : List Char :=
  match lastIdxOfDot n with
  | some i => if 0 < i ∧ i + 1 < n.length then n.take i else n
  | none => n

/-- `pathlib.Path(p).stem`. -/
def pathStemL (p : List Char) : List Char := stemOfName (pathNameL p)

/-- `pathlib.Path(p).suffix`. -/
def pathSuffixL (p : List Char) : List Char :=
  match lastIdxOfDot (pathNameL p) with
  | some i => if 0 < i ∧ i + 1 < (pathNameL p).length then (pathNameL p).drop i else []
  | none => []

/-- Lower-casing, for the `.lower()` calls on suffixes and names. -/
def strLowerL (l : List Char) : List Char := l.map Char.toLower

/-- The output path chosen by `process_single_file` (converter.py lines
162-169): an output argument whose final component contains a dot is used as
is; otherwise it is treated as a directory and joined with
`<stem>_translated<suffix>` where the source computes `suffix` as `".txt"` in
both branches of its conditional. -/
def process_single_file_output (input outArg : List Char) : List Char :=
  if (pathNameL outArg).contains '.' then outArg
  else outArg ++ '/' :: (pathStemL input ++ "_translated".toList ++ ".txt".toList)

/-- Raw final component (no trailing-slash normalisation), for `with_suffix`. -/
def nameTake (p : List Char) : List Char := (splitSlash p).getLastD []

/-- Directory part including the final separator, for `with_suffix`. -/
def dirTake (p : List Char) : List Char := p.take (p.length - (nameTake p).length)

/-- `Path.with_suffix(".txt")`: replace (or append) the extension of the final
component with `.txt`. -/
def withSuffixTxt (p : List Char) : List Char :=
  dirTake p ++ stemOfName (nameTake p) ++ ".txt".toList

/-- What `process_single_file` does with a supported input file. -/
inductive FileAction where
  | convertTxtXml
  | convertPdf
  | skipUnsupported
deriving DecidableEq

def textExts : List (List Char) :=
  [".txt".toList, ".xml".toList, ".json".toList, ".html".toList, ".md".toList]

/-- Dispatch of `process_single_file` (converter.py lines 171-176). -/
def process_single_file_action (input : List Char) : FileAction :=
  if textExts.contains (strLowerL (pathSuffixL input)) then .convertTxtXml
  else if strLowerL (pathSuffixL input) == ".pdf".toList then .convertPdf
  else .skipUnsupported

/-- The path actually written for a supported single file: PDFs have the
output extension forced to `.txt` (converter.py line 174), everything else
uses the resolved output path. -/
def written_output_path (input outArg : List Char) : List Char :=
  if strLowerL (pathSuffixL input) == ".pdf".toList
  then withSuffixTxt (process_single_file_output input outArg)
  else process_single_file_output input outArg

def supportedExts : List (List Char) :=
  [".txt".toList, ".xml".toList, ".json".toList, ".html".toList, ".md".toList, ".pdf".toList]

/-- The `rglob` filter of `batch_process` (converter.py line 181). -/
def supportedFile (p : List Char) : Bool := supportedExts.contains (strLowerL (pathSuffixL p))

/-- `batch_process` (converter.py lines 178-188): only files passing the
suffix filter are handed to `process_single_file`; the result records, per
processed file, the action taken. -/
def batch_process (all : List (List Char)) : List (List Char × FileAction) :=
  (all.filter supportedFile).map (fun f => (f, process_single_file_action f))

/-- Output-argument resolution in `main` (converter.py lines 190-195): fewer
than two arguments is a usage error, a missing third argument defaults to
`"output"`. -/
def main_output_arg : List (List Char) → Option (List Char)
  | _ :: _ :: out :: _ => some out
  | [_, _] => some ("output".toList)
  | _ => none

/-- The file classifier of `convert_txt_or_xml` (converter.py line 131):
`.xml` suffix (lower-cased) and `"strings"` contained in the lower-cased file
name. -/
def isStringsXml (p : List Char) : Bool :=
  (strLowerL (pathSuffixL p) == ".xml".toList) &&
    containsSub ("strings".toList) (strLowerL (pathNameL p))

/-- The content transformation of `convert_txt_or_xml` (converter.py lines
127-138): strings-resource XML goes through `translate_xml_strings`, every
other text file is converted whole by t2s. -/
def convert_file_content (tbl : T2STable) (avail : Bool) (tr : Translator)
    (fname content : List Char) : List Char :=
  if isStringsXml fname then translate_xml_strings tbl avail tr content
  else convertL tbl content

end Converter

namespace Converter

/-! ## Basic lemmas -/

theorem ciEq_refl (c : Char) : ciEq c c = true := by simp [ciEq]

theorem ciEq_comm (a b : Char) : ciEq a b = ciEq b a := by
  unfold ciEq
  by_cases h : a.toLower = b.toLower
  · rw [h]
  · have h2 : ¬ b.toLower = a.toLower := fun hh => h hh.symm
    simp [h, h2]

theorem takeWhile_all (p : Char → Bool) (ws : List Char) (d : Char) (r : List Char)
    (hws : ∀ c ∈ ws, p c = true) (hd : p d = false) :
    (ws ++ d :: r).takeWhile p = ws := by
  induction ws with
  | nil => simp [List.takeWhile_cons, hd]
  | cons c t ih =>
    have hc : p c = true := hws c (List.mem_cons_self c t)
    simp [List.takeWhile_cons, hc,
      ih (fun x hx => hws x (List.mem_cons_of_mem c hx))]

theorem dropWhile_all (p : Char → Bool) (ws : List Char) (d : Char) (r : List Char)
    (hws : ∀ c ∈ ws, p c = true) (hd : p d = false) :
    (ws ++ d :: r).dropWhile p = d :: r := by
  induction ws with
  | nil => simp [List.dropWhile_cons, hd]
  | cons c t ih =>
    have hc : p c = true := hws c (List.mem_cons_self c t)
    simp [List.dropWhile_cons, hc,
      ih (fun x hx => hws x (List.mem_cons_of_mem c hx))]

theorem dropWhile_head_false (p : Char → Bool) (l : List Char) (c : Char) (t : List Char)
    (h : l.dropWhile p = c :: t) : p c = false := by
  induction l with
  | nil => simp [List.dropWhile] at h
  | cons a l ih =>
    rw [List.dropWhile_cons] at h
    by_cases ha : p a = true
    · rw [if_pos ha] at h
      exact ih h
    · rw [if_neg ha] at h
      cases h
      exact Bool.eq_false_iff.mpr ha

theorem dropWhile_idem (p : Char → Bool) (l : List Char) :
    (l.dropWhile p).dropWhile p = l.dropWhile p := by
  cases h : l.dropWhile p with
  | nil => simp
  | cons c t =>
    rw [List.dropWhile_cons, dropWhile_head_false p l c t h]
    simp

theorem pyStripL_idem (l : List Char) : pyStripL (pyStripL l) = pyStripL l := by
  unfold pyStripL
  have hpre : ((l.dropWhile pySpaceChar).reverse.dropWhile pySpaceChar).reverse
      <+: l.dropWhile pySpaceChar := by
    have hs : (l.dropWhile pySpaceChar).reverse.dropWhile pySpaceChar
        <:+ (l.dropWhile pySpaceChar).reverse := List.dropWhile_suffix _
    have := List.reverse_prefix.mpr hs
    simpa using this
  have h1 : (((l.dropWhile pySpaceChar).reverse.dropWhile pySpaceChar).reverse).dropWhile
      pySpaceChar = ((l.dropWhile pySpaceChar).reverse.dropWhile pySpaceChar).reverse := by
    cases hb : ((l.dropWhile pySpaceChar).reverse.dropWhile pySpaceChar).reverse with
    | nil => simp
    | cons c t =>
      rw [hb] at hpre
      obtain ⟨u, hu⟩ := hpre
      have hl : l.dropWhile pySpaceChar = c :: (t ++ u) := by
        rw [← hu]; simp
      rw [List.dropWhile_cons, dropWhile_head_false pySpaceChar l c (t ++ u) hl]
      simp
  rw [h1]
  rw [List.reverse_reverse, dropWhile_idem]

/-! ## Script-converter lemmas -/

theorem lookupT_idem (tbl : T2STable) (h : TableWF tbl) (c : Char) :
    lookupT tbl (lookupT tbl c) = lookupT tbl c := by
  cases hf : tbl.find? (fun p => p.1 == c) with
  | some q =>
    have hc : lookupT tbl c = q.2 := by simp [lookupT, hf]
    rw [hc]
    exact h q (List.mem_of_find?_eq_some hf)
  | none =>
    have hc : lookupT tbl c = c := by simp [lookupT, hf]
    rw [hc, hc]

theorem lookupT_not_trad (tbl : T2STable) (c : Char) (h : isTrad tbl c = false) :
    lookupT tbl c = c := by
  unfold isTrad at h
  cases hf : tbl.find? (fun p => p.1 == c) with
  | some q => rw [hf] at h; simp at h
  | none => simp [lookupT, hf]

/-! ## auto_en_to_zh lemmas -/

theorem auto_id_of_failure (avail : Bool) (tr : Translator) (text : List Char)
    (h : avail = false ∨ tr (strippedOf text) = none) :
    auto_en_to_zh avail tr text = text := by
  unfold auto_en_to_zh
  rcases h with h | h
  · simp [h]
  · by_cases ha : avail = false
    · simp [ha]
    · rw [if_neg ha]
      split
      · rfl
      · split
        · rfl
        · split
          · rfl
          · rw [h]

theorem processValue_of_failure (tbl : T2STable) (avail : Bool) (tr : Translator)
    (rawVal : List Char)
    (h : avail = false ∨ tr (strippedOf (pyStripL rawVal)) = none) :
    processValue tbl avail tr rawVal = convertL tbl (pyStripL rawVal) := by
  unfold processValue
  rw [auto_id_of_failure avail tr (pyStripL rawVal) h]
  simp

theorem processValue_pyStrip (tbl : T2STable) (avail : Bool) (tr : Translator)
    (rawVal : List Char) :
    processValue tbl avail tr rawVal = processValue tbl avail tr (pyStripL rawVal) := by
  unfold processValue
  rw [pyStripL_idem]

/-! ## Claims C1, C2, C7, C8 -/

/-- C1 (code_bug evidence): the placeholder guard does not recognise
positional printf specifiers.  `has_placeholder` is false on `Go to %1$s`
(the regex `%[0-9]*[sd]` cannot match across the `$`), although the source's
own comment (`# %s, %1$s, %d 等`, converter.py line 67) and module docstring
(`%1$d`) claim such placeholders are avoided; the plain `%s` form is
recognised.  Consequently the pipeline hands the fragment to the translation
provider, and the provider's output replaces the fragment wholesale, so the
protected token need not survive: with a provider returning `轉到`, the
pipeline output for `Go to %1$s` is `>轉到`, which does not contain `%1$s`. -/
theorem c1_placeholder_gap :
    has_placeholder ("Go to %1$s".toList) = false ∧
    has_placeholder ("Go to %s".toList) = true ∧
    auto_en_to_zh true (fun _ => some ("轉到".toList)) ("Go to %1$s".toList)
      = '>' :: "轉到".toList := by decide

/-- C2: if translation is unavailable, or the provider raises on the input it
is given for this fragment, `auto_en_to_zh` returns its input unchanged (no
error propagates: the function is total and the `try/except` is modelled by
the `Option` match), and the per-fragment pipeline still applies script
conversion afterwards: the value produced for the fragment is exactly
`convertL` of the stripped value. -/
theorem c2_provider_failure (tbl : T2STable) (avail : Bool) (tr : Translator)
    (text rawVal : List Char)
    (h1 : avail = false ∨ tr (strippedOf text) = none)
    (h2 : avail = false ∨ tr (strippedOf (pyStripL rawVal)) = none) :
    auto_en_to_zh avail tr text = text ∧
    processValue tbl avail tr rawVal = convertL tbl (pyStripL rawVal) :=
  ⟨auto_id_of_failure avail tr text h1, processValue_of_failure tbl avail tr rawVal h2⟩

/-- C2 witness: a provider that always raises, on a fragment mixing English
and a traditional character. -/
theorem c2_provider_failure_witness :
    auto_en_to_zh true (fun _ => none) (" Hello 體 ".toList) = " Hello 體 ".toList ∧
    processValue exTbl true (fun _ => none) (" Hello 體 ".toList)
      = convertL exTbl (pyStripL (" Hello 體 ".toList)) :=
  c2_provider_failure exTbl true (fun _ => none)
    (" Hello 體 ".toList) (" Hello 體 ".toList) (Or.inr rfl) (Or.inr rfl)

/-- C7 (spec-modelled: the OpenCC t2s table is external to the repository):
for any well-formed traditional→simplified table, conversion is idempotent,
and it is the identity on text containing no traditional-script character. -/
theorem c7_convert_props (tbl : T2STable) (h : TableWF tbl) (T : List Char) :
    convertL tbl (convertL tbl T) = convertL tbl T ∧
    ((∀ c ∈ T, isTrad tbl c = false) → convertL tbl T = T) := by
  constructor
  · unfold convertL
    rw [List.map_map]
    exact List.map_congr_left (fun c _ => lookupT_idem tbl h c)
  · intro hno
    unfold convertL
    induction T with
    | nil => rfl
    | cons c t ih =>
      have h1 : lookupT tbl c = c :=
        lookupT_not_trad tbl c (hno c (List.mem_cons_self c t))
      have h2 := ih (fun d hd => hno d (List.mem_cons_of_mem c hd))
      simp only [List.map_cons, h1, h2]

/-- C7 witness: a concrete table on concrete traditional and simplified text. -/
theorem c7_convert_props_witness :
    convertL exTbl (convertL exTbl ("國體abc".toList)) = convertL exTbl ("國體abc".toList) ∧
    convertL exTbl ("abc 体".toList) = "abc 体".toList :=
  ⟨(c7_convert_props exTbl (by unfold TableWF; decide) ("國體abc".toList)).1,
   (c7_convert_props exTbl (by unfold TableWF; decide) ("abc 体".toList)).2 (by decide)⟩

/-- C8: whenever the provider call is reached and succeeds — the stripped text
is non-empty, has no placeholder, contains an ASCII letter — the result is the
character `>` prepended to the provider's translation, even though the input
did not start with `>` (the source sets `prefix = ">"` unconditionally). -/
theorem c8_gt_mark (tr : Translator) (t text : List Char)
    (_hgt : headGt (pyStripL text) = false)
    (hne : (strippedOf text).isEmpty = false)
    (hph : has_placeholder (strippedOf text) = false)
    (hal : (strippedOf text).any isAsciiAlphaChar = true)
    (htr : tr (strippedOf text) = some t) :
    auto_en_to_zh true tr text = '>' :: t := by
  unfold auto_en_to_zh
  rw [hne, hph, hal, htr]
  simp

/-! ## Scanner lemmas -/

theorem ciStripPat_self_append (p r : List Char) : ciStripPat p (p ++ r) = some r := by
  induction p with
  | nil => rfl
  | cons c ps ih => simp [ciStripPat, ciEq_refl, ih]

theorem ciStripPat_length (p : List Char) :
    ∀ s r, ciStripPat p s = some r → r.length + p.length = s.length := by
  induction p with
  | nil =>
    intro s r h
    simp [ciStripPat] at h
    simp [h]
  | cons c ps ih =>
    intro s r h
    cases s with
    | nil => simp [ciStripPat] at h
    | cons d ds =>
      simp only [ciStripPat] at h
      split at h
      · have := ih ds r h
        simp only [List.length_cons]
        omega
      · simp at h

theorem splitAtClose_length :
    ∀ s v r, splitAtClose s = some (v, r) → r.length < s.length := by
  intro s
  induction s with
  | nil => intro v r h; simp [splitAtClose] at h
  | cons c rest ih =>
    intro v r h
    unfold splitAtClose at h
    cases hcs : ciStripPat closeTag (c :: rest) with
    | some rr =>
      simp only [hcs, Option.some.injEq, Prod.mk.injEq] at h
      have hlen := ciStripPat_length closeTag (c :: rest) rr hcs
      simp only [closeTag, List.length_cons, List.length_nil] at hlen
      have hr : rr = r := h.2
      subst hr
      simp only [List.length_cons]
      omega
    | none =>
      simp only [hcs] at h
      cases hsc : splitAtClose rest with
      | some vr =>
        obtain ⟨v2, r2⟩ := vr
        simp only [hsc, Option.some.injEq, Prod.mk.injEq] at h
        have hlt := ih v2 r2 hsc
        have hr : r2 = r := h.2
        subst hr
        simp only [List.length_cons]
        omega
      | none => simp [hsc] at h

theorem afterOpen_length (s r1 : List Char) (h : afterOpen s = some r1) :
    r1.length < s.length := by
  have := ciStripPat_length ltStringPat s r1 h
  simp only [ltStringPat, List.length_cons, List.length_nil] at this
  omega

theorem afterWs1_length (r1 r2 : List Char) (h : afterWs1 r1 = some r2) :
    r2.length ≤ r1.length := by
  unfold afterWs1 at h
  split at h
  · simp at h
  · simp only [Option.some.injEq] at h
    subst h
    exact (List.dropWhile_suffix _).length_le

theorem afterName_length (r2 nm r5 : List Char) (h : afterName r2 = some (nm, r5)) :
    r5.length < r2.length := by
  unfold afterName at h
  cases hcs : ciStripPat nameEqPat r2 with
  | none => simp [hcs] at h
  | some r3 =>
    simp only [hcs] at h
    have h3 : r3.length + 6 = r2.length := by
      have := ciStripPat_length nameEqPat r2 r3 hcs
      simpa [nameEqPat] using this
    split at h
    · simp at h
    · cases hdw : r3.dropWhile (fun c => c != '"') with
      | nil => simp [hdw] at h
      | cons x r5x =>
        simp only [hdw, Option.some.injEq, Prod.mk.injEq] at h
        have hle : (x :: r5x).length ≤ r3.length := by
          rw [← hdw]
          exact (List.dropWhile_suffix _).length_le
        simp only [List.length_cons] at hle
        have hr : r5x = r5 := h.2
        subst hr
        omega

theorem afterGt_length (r5 r7 : List Char) (h : afterGt r5 = some r7) :
    r7.length < r5.length := by
  unfold afterGt at h
  cases hdw : r5.dropWhile pySpaceChar with
  | nil => simp [hdw] at h
  | cons x t =>
    simp only [hdw] at h
    split at h
    · simp only [Option.some.injEq] at h
      subst h
      have hle : (x :: t).length ≤ r5.length := by
        rw [← hdw]
        exact (List.dropWhile_suffix _).length_le
      simp only [List.length_cons] at hle
      omega
    · simp at h

theorem tryMatch_length (s nm v r : List Char) (h : tryMatchString s = some (nm, v, r)) :
    r.length < s.length := by
  unfold tryMatchString at h
  cases h1 : afterOpen s with
  | none => simp [h1] at h
  | some r1 =>
    simp only [h1] at h
    cases h2 : afterWs1 r1 with
    | none => simp [h2] at h
    | some r2 =>
      simp only [h2] at h
      cases h3 : afterName r2 with
      | none => simp [h3] at h
      | some nmr5 =>
        obtain ⟨nm2, r5⟩ := nmr5
        simp only [h3] at h
        cases h4 : afterGt r5 with
        | none => simp [h4] at h
        | some r7 =>
          simp only [h4] at h
          cases h5 : splitAtClose r7 with
          | none => simp [h5] at h
          | some vr =>
            obtain ⟨v2, r8⟩ := vr
            simp only [h5, Option.some.injEq, Prod.mk.injEq] at h
            have hr : r8 = r := h.2.2
            subst hr
            have l1 : r1.length < s.length := afterOpen_length s r1 h1
            have l2 := afterWs1_length r1 r2 h2
            have l3 := afterName_length r2 nm2 r5 h3
            have l4 := afterGt_length r5 r7 h4
            have l5 := splitAtClose_length r7 v2 r8 h5
            omega

theorem xmlScanF_fuel2 (tbl : T2STable) (avail : Bool) (tr : Translator) :
    ∀ n l f1 f2, l.length ≤ n → l.length ≤ f1 → l.length ≤ f2 →
      xmlScanF tbl avail tr f1 l = xmlScanF tbl avail tr f2 l := by
  intro n
  induction n with
  | zero =>
    intro l f1 f2 hn h1 h2
    have hl : l = [] := List.length_eq_zero.mp (Nat.le_zero.mp hn)
    subst hl
    simp [xmlScanF]
  | succ n ih =>
    intro l f1 f2 hn h1 h2
    cases l with
    | nil => simp [xmlScanF]
    | cons c rest =>
      cases f1 with
      | zero => simp at h1
      | succ f1 =>
        cases f2 with
        | zero => simp at h2
        | succ f2 =>
          simp only [List.length_cons] at hn h1 h2
          cases hm : tryMatchString (c :: rest) with
          | some nvr =>
            obtain ⟨nm, v, r⟩ := nvr
            have hr := tryMatch_length (c :: rest) nm v r hm
            simp only [List.length_cons] at hr
            have heq : xmlScanF tbl avail tr f1 r = xmlScanF tbl avail tr f2 r := by
              apply ih r f1 f2 <;> omega
            simp only [xmlScanF, hm, heq]
          | none =>
            have heq : xmlScanF tbl avail tr f1 rest = xmlScanF tbl avail tr f2 rest := by
              apply ih rest f1 f2 <;> omega
            simp only [xmlScanF, hm, heq]

theorem xmlScanF_fuel (tbl : T2STable) (avail : Bool) (tr : Translator)
    (fuel : Nat) (l : List Char) (h : l.length ≤ fuel) :
    xmlScanF tbl avail tr fuel l = xmlScanF tbl avail tr l.length l :=
  xmlScanF_fuel2 tbl avail tr fuel l fuel l.length h h le_rfl

theorem trans_cons_nomatch (tbl : T2STable) (avail : Bool) (tr : Translator)
    (c : Char) (rest : List Char) (h : tryMatchString (c :: rest) = none) :
    translate_xml_strings tbl avail tr (c :: rest)
      = c :: translate_xml_strings tbl avail tr rest := by
  unfold translate_xml_strings
  simp only [List.length_cons]
  simp only [xmlScanF, h]

theorem trans_match (tbl : T2STable) (avail : Bool) (tr : Translator)
    (l nm v r : List Char) (h : tryMatchString l = some (nm, v, r)) :
    translate_xml_strings tbl avail tr l
      = outOpen ++ (nm ++ (outMid ++ (processValue tbl avail tr v ++
          (closeTag ++ translate_xml_strings tbl avail tr r)))) := by
  cases l with
  | nil =>
    exfalso
    unfold tryMatchString afterOpen at h
    simp [ciStripPat, ltStringPat] at h
  | cons c rest =>
    have hr := tryMatch_length (c :: rest) nm v r h
    simp only [List.length_cons] at hr
    unfold translate_xml_strings
    simp only [List.length_cons]
    simp only [xmlScanF, h]
    rw [xmlScanF_fuel tbl avail tr rest.length r (by omega)]

theorem tryMatch_none_head (c : Char) (rest : List Char) (h : ciEq c '<' = false) :
    tryMatchString (c :: rest) = none := by
  unfold tryMatchString afterOpen
  have hnone : ciStripPat ltStringPat (c :: rest) = none := by
    simp only [ltStringPat, ciStripPat]
    rw [ciEq_comm '<' c, h]
    simp
  rw [hnone]

/-- C8 witness: `Move up` (no leading `>`) with a provider returning `上移`
comes back as `>上移`. -/
theorem c8_gt_mark_witness :
    auto_en_to_zh true (fun _ => some ("上移".toList)) ("Move up".toList)
      = '>' :: "上移".toList :=
  c8_gt_mark (fun _ => some ("上移".toList)) ("上移".toList) ("Move up".toList)
    (by decide) (by decide) (by decide) (by decide) rfl

end Converter

namespace Converter

/-! ## Anchored-match lemmas for well-formed elements -/

theorem splitAtClose_clean (val X : List Char) (h : ∀ c ∈ val, ciEq c '<' = false) :
    splitAtClose (val ++ (closeTag ++ X)) = some (val, X) := by
  induction val with
  | nil =>
    simp only [List.nil_append]
    have h1 : ciStripPat closeTag
        ('<' :: ('/' :: ('s' :: ('t' :: ('r' :: ('i' :: ('n' :: ('g' :: ('>' :: X)))))))))
        = some X := ciStripPat_self_append closeTag X
    have h2 : (closeTag ++ X : List Char)
        = '<' :: ('/' :: ('s' :: ('t' :: ('r' :: ('i' :: ('n' :: ('g' :: ('>' :: X)))))))) := rfl
    rw [h2]
    unfold splitAtClose
    rw [h1]
  | cons c val2 ih =>
    have hc : ciEq c '<' = false := h c (List.mem_cons_self c val2)
    have hnone : ciStripPat closeTag (c :: (val2 ++ (closeTag ++ X))) = none := by
      simp only [closeTag, ciStripPat]
      rw [ciEq_comm '<' c, hc]
      simp
    simp only [List.cons_append]
    unfold splitAtClose
    rw [hnone, ih (fun d hd => h d (List.mem_cons_of_mem c hd))]

theorem tryMatch_elem (ws1 nm ws2 val rest : List Char)
    (hws1e : ws1 ≠ []) (hws1 : ∀ c ∈ ws1, pySpaceChar c = true)
    (hws2 : ∀ c ∈ ws2, pySpaceChar c = true)
    (hnme : nm ≠ []) (hnm : ∀ c ∈ nm, (c == '"') = false)
    (hval : ∀ c ∈ val, ciEq c '<' = false) :
    tryMatchString (elemL ws1 nm ws2 val ++ rest) = some (nm, val, rest) := by
  have hA : elemL ws1 nm ws2 val ++ rest
      = ltStringPat ++ (ws1 ++ (nameEqPat ++ (nm ++ ('"' ::
          (ws2 ++ ('>' :: (val ++ (closeTag ++ rest)))))))) := by
    simp [elemL, List.append_assoc]
  have hOpen : afterOpen (ltStringPat ++ (ws1 ++ (nameEqPat ++ (nm ++ ('"' ::
      (ws2 ++ ('>' :: (val ++ (closeTag ++ rest)))))))))
      = some (ws1 ++ (nameEqPat ++ (nm ++ ('"' ::
          (ws2 ++ ('>' :: (val ++ (closeTag ++ rest)))))))) :=
    ciStripPat_self_append ltStringPat _
  have hws1ne : ws1.isEmpty = false := by
    cases ws1 with
    | nil => exact absurd rfl hws1e
    | cons a b => rfl
  have htw1 : ((ws1 ++ (nameEqPat ++ (nm ++ ('"' ::
      (ws2 ++ ('>' :: (val ++ (closeTag ++ rest)))))))).takeWhile pySpaceChar) = ws1 :=
    takeWhile_all pySpaceChar ws1 'n' (['a', 'm', 'e', '=', '"'] ++ (nm ++ ('"' ::
      (ws2 ++ ('>' :: (val ++ (closeTag ++ rest))))))) hws1 (by decide)
  have hdw1 : ((ws1 ++ (nameEqPat ++ (nm ++ ('"' ::
      (ws2 ++ ('>' :: (val ++ (closeTag ++ rest)))))))).dropWhile pySpaceChar)
      = nameEqPat ++ (nm ++ ('"' :: (ws2 ++ ('>' :: (val ++ (closeTag ++ rest)))))) :=
    dropWhile_all pySpaceChar ws1 'n' (['a', 'm', 'e', '=', '"'] ++ (nm ++ ('"' ::
      (ws2 ++ ('>' :: (val ++ (closeTag ++ rest))))))) hws1 (by decide)
  have hW : afterWs1 (ws1 ++ (nameEqPat ++ (nm ++ ('"' ::
      (ws2 ++ ('>' :: (val ++ (closeTag ++ rest))))))))
      = some (nameEqPat ++ (nm ++ ('"' :: (ws2 ++ ('>' :: (val ++ (closeTag ++ rest))))))) := by
    unfold afterWs1
    rw [htw1, hdw1]
    simp [hws1ne]
  have hstrip2 : ciStripPat nameEqPat (nameEqPat ++ (nm ++ ('"' ::
      (ws2 ++ ('>' :: (val ++ (closeTag ++ rest)))))))
      = some (nm ++ ('"' :: (ws2 ++ ('>' :: (val ++ (closeTag ++ rest)))))) :=
    ciStripPat_self_append nameEqPat _
  have hnmb : ∀ c ∈ nm, ((fun c => c != '"') c) = true := fun c hc => by
    simp [bne, hnm c hc]
  have htw2 : ((nm ++ ('"' :: (ws2 ++ ('>' :: (val ++ (closeTag ++ rest)))))).takeWhile
      (fun c => c != '"')) = nm :=
    takeWhile_all _ nm '"' (ws2 ++ ('>' :: (val ++ (closeTag ++ rest)))) hnmb (by decide)
  have hdw2 : ((nm ++ ('"' :: (ws2 ++ ('>' :: (val ++ (closeTag ++ rest)))))).dropWhile
      (fun c => c != '"')) = '"' :: (ws2 ++ ('>' :: (val ++ (closeTag ++ rest)))) :=
    dropWhile_all _ nm '"' (ws2 ++ ('>' :: (val ++ (closeTag ++ rest)))) hnmb (by decide)
  have hnmne : nm.isEmpty = false := by
    cases nm with
    | nil => exact absurd rfl hnme
    | cons a b => rfl
  have hN : afterName (nameEqPat ++ (nm ++ ('"' :: (ws2 ++ ('>' :: (val ++ (closeTag ++ rest)))))))
      = some (nm, ws2 ++ ('>' :: (val ++ (closeTag ++ rest)))) := by
    unfold afterName
    simp [hstrip2, htw2, hdw2, hnmne]
  have hdw3 : ((ws2 ++ ('>' :: (val ++ (closeTag ++ rest)))).dropWhile pySpaceChar)
      = '>' :: (val ++ (closeTag ++ rest)) :=
    dropWhile_all pySpaceChar ws2 '>' (val ++ (closeTag ++ rest)) hws2 (by decide)
  have hG : afterGt (ws2 ++ ('>' :: (val ++ (closeTag ++ rest))))
      = some (val ++ (closeTag ++ rest)) := by
    unfold afterGt
    simp [hdw3]
  have hS : splitAtClose (val ++ (closeTag ++ rest)) = some (val, rest) :=
    splitAtClose_clean val rest hval
  rw [hA]
  unfold tryMatchString
  simp only [hOpen, hW, hN, hG, hS]

theorem trans_append_pre (tbl : T2STable) (avail : Bool) (tr : Translator)
    (pre s : List Char) (hpre : ∀ c ∈ pre, ciEq c '<' = false) :
    translate_xml_strings tbl avail tr (pre ++ s)
      = pre ++ translate_xml_strings tbl avail tr s := by
  induction pre with
  | nil => simp
  | cons c p ih =>
    have hc := hpre c (List.mem_cons_self c p)
    simp only [List.cons_append]
    rw [trans_cons_nomatch tbl avail tr c (p ++ s) (tryMatch_none_head c (p ++ s) hc)]
    rw [ih (fun d hd => hpre d (List.mem_cons_of_mem c hd))]

theorem scan_decomp (tbl : T2STable) (avail : Bool) (tr : Translator)
    (pre ws1 nm ws2 val rest : List Char)
    (hpre : ∀ c ∈ pre, ciEq c '<' = false)
    (hws1e : ws1 ≠ []) (hws1 : ∀ c ∈ ws1, pySpaceChar c = true)
    (hws2 : ∀ c ∈ ws2, pySpaceChar c = true)
    (hnme : nm ≠ []) (hnm : ∀ c ∈ nm, (c == '"') = false)
    (hval : ∀ c ∈ val, ciEq c '<' = false) :
    translate_xml_strings tbl avail tr (pre ++ (elemL ws1 nm ws2 val ++ rest))
      = pre ++ (outOpen ++ (nm ++ (outMid ++ (processValue tbl avail tr val ++
          (closeTag ++ translate_xml_strings tbl avail tr rest))))) := by
  rw [trans_append_pre tbl avail tr pre (elemL ws1 nm ws2 val ++ rest) hpre]
  rw [trans_match tbl avail tr (elemL ws1 nm ws2 val ++ rest) nm val rest
    (tryMatch_elem ws1 nm ws2 val rest hws1e hws1 hws2 hnme hnm hval)]

end Converter

namespace Converter

/-! ## Claims C3, C4, C9 -/

/-- C3 (counterexample): the tag syntax of a matched element is not copied
verbatim — the replacement template rebuilds the opening tag canonically, so
an extra space inside `<string  name="a">` is collapsed and the output
document differs from the input even though value and name are unchanged. -/
theorem c3_tag_not_verbatim :
    translate_xml_strings exTbl false (fun _ => none)
        ("<string  name=\"a\">x</string>".toList)
      = "<string name=\"a\">x</string>".toList ∧
    "<string name=\"a\">x</string>".toList ≠ "<string  name=\"a\">x</string>".toList := by
  decide

/-- C3 (amended): reassembly reproduces every character of the structural
fragments unchanged and copies the `name` attribute verbatim, but the tag
syntax is rewritten in the canonical form `<string name="...">...</string>`
(whitespace and letter case inside the matched tags are not preserved).
Stated for a structural prefix without `<`, a well-formed element whose value
contains no `<`, and an arbitrary remainder on which scanning continues. -/
theorem c3_structural_preserved (tbl : T2STable) (avail : Bool) (tr : Translator)
    (pre ws1 nm ws2 val rest : List Char)
    (hpre : ∀ c ∈ pre, ciEq c '<' = false)
    (hws1e : ws1 ≠ []) (hws1 : ∀ c ∈ ws1, pySpaceChar c = true)
    (hws2 : ∀ c ∈ ws2, pySpaceChar c = true)
    (hnme : nm ≠ []) (hnm : ∀ c ∈ nm, (c == '"') = false)
    (hval : ∀ c ∈ val, ciEq c '<' = false) :
    translate_xml_strings tbl avail tr (pre ++ (elemL ws1 nm ws2 val ++ rest))
      = pre ++ (outOpen ++ (nm ++ (outMid ++ (processValue tbl avail tr val ++
          (closeTag ++ translate_xml_strings tbl avail tr rest))))) :=
  scan_decomp tbl avail tr pre ws1 nm ws2 val rest hpre hws1e hws1 hws2 hnme hnm hval

/-- C3 witness: concrete structural prefix, element and remainder. -/
theorem c3_structural_preserved_witness :
    translate_xml_strings exTbl false (fun _ => none)
        ("head \n".toList ++ (elemL ("  ".toList) ("app_name".toList) (" ".toList)
          ("Hello 體".toList) ++ "tail".toList))
      = "head \n".toList ++ (outOpen ++ ("app_name".toList ++ (outMid ++
          (processValue exTbl false (fun _ => none) ("Hello 體".toList) ++
            (closeTag ++ translate_xml_strings exTbl false (fun _ => none) ("tail".toList)))))) :=
  c3_structural_preserved exTbl false (fun _ => none) _ _ _ _ _ _
    (by decide) (by decide) (by decide) (by decide) (by decide) (by decide) (by decide)

/-- C4 (counterexample): there is no whole-document conversion pass for a
strings-resource file.  A traditional character (`國`) in a structural span
survives `convert_file_content` untouched, although the converter would have
changed it (`convertL` of the document differs). -/
theorem c4_no_doc_pass :
    convert_file_content exTbl false (fun _ => none) ("strings.xml".toList)
        ("國<string name=\"a\">x</string>".toList)
      = "國<string name=\"a\">x</string>".toList ∧
    convertL exTbl ("國<string name=\"a\">x</string>".toList)
      ≠ "國<string name=\"a\">x</string>".toList := by
  decide

/-- C4 (amended): for a strings-resource file the script converter runs only
inside matched fragments: the document output keeps every structural character
(the prefix `pre` in particular) exactly as in the input, while each matched
value goes through `processValue`, which applies `convertL`; no further
conversion pass runs over the reassembled document. -/
theorem c4_conversion_scope (tbl : T2STable) (avail : Bool) (tr : Translator)
    (fname pre ws1 nm ws2 val rest : List Char)
    (hfile : isStringsXml fname = true)
    (hpre : ∀ c ∈ pre, ciEq c '<' = false)
    (hws1e : ws1 ≠ []) (hws1 : ∀ c ∈ ws1, pySpaceChar c = true)
    (hws2 : ∀ c ∈ ws2, pySpaceChar c = true)
    (hnme : nm ≠ []) (hnm : ∀ c ∈ nm, (c == '"') = false)
    (hval : ∀ c ∈ val, ciEq c '<' = false) :
    convert_file_content tbl avail tr fname (pre ++ (elemL ws1 nm ws2 val ++ rest))
      = pre ++ (outOpen ++ (nm ++ (outMid ++ (processValue tbl avail tr val ++
          (closeTag ++ translate_xml_strings tbl avail tr rest))))) ∧
    (avail = false → processValue tbl avail tr val = convertL tbl (pyStripL val)) := by
  constructor
  · unfold convert_file_content
    rw [hfile]
    simp only [if_true]
    exact scan_decomp tbl avail tr pre ws1 nm ws2 val rest hpre hws1e hws1 hws2 hnme hnm hval
  · intro ha
    exact processValue_of_failure tbl avail tr val (Or.inl ha)

/-- C4 witness: concrete strings-resource document with a structural
traditional character. -/
theorem c4_conversion_scope_witness :
    convert_file_content exTbl false (fun _ => none) ("strings.xml".toList)
        ("國 ".toList ++ (elemL (" ".toList) ("a".toList) [] ("x 體".toList) ++ "頁".toList))
      = "國 ".toList ++ (outOpen ++ ("a".toList ++ (outMid ++
          (processValue exTbl false (fun _ => none) ("x 體".toList) ++
            (closeTag ++ translate_xml_strings exTbl false (fun _ => none) ("頁".toList)))))) ∧
    processValue exTbl false (fun _ => none) ("x 體".toList)
      = convertL exTbl (pyStripL ("x 體".toList)) :=
  ⟨(c4_conversion_scope exTbl false (fun _ => none) _ _ _ _ _ _ _
      (by decide) (by decide) (by decide) (by decide) (by decide) (by decide) (by decide)
      (by decide)).1,
   (c4_conversion_scope exTbl false (fun _ => none) ("strings.xml".toList) ("國 ".toList)
      (" ".toList) ("a".toList) [] ("x 體".toList) ("頁".toList)
      (by decide) (by decide) (by decide) (by decide) (by decide) (by decide) (by decide)
      (by decide)).2 rfl⟩

/-- C9: the output VALUE of a matched element is computed from the stripped
input VALUE — the document-level output only depends on `pyStripL val`, so
leading and trailing whitespace is removed even when the fragment is protected
or no translation occurs (`processValue` strips before everything else). -/
theorem c9_value_stripped (tbl : T2STable) (avail : Bool) (tr : Translator)
    (ws1 nm ws2 val rest : List Char)
    (hws1e : ws1 ≠ []) (hws1 : ∀ c ∈ ws1, pySpaceChar c = true)
    (hws2 : ∀ c ∈ ws2, pySpaceChar c = true)
    (hnme : nm ≠ []) (hnm : ∀ c ∈ nm, (c == '"') = false)
    (hval : ∀ c ∈ val, ciEq c '<' = false) :
    translate_xml_strings tbl avail tr (elemL ws1 nm ws2 val ++ rest)
      = outOpen ++ (nm ++ (outMid ++ (processValue tbl avail tr (pyStripL val) ++
          (closeTag ++ translate_xml_strings tbl avail tr rest)))) := by
  have h := scan_decomp tbl avail tr [] ws1 nm ws2 val rest (by simp)
    hws1e hws1 hws2 hnme hnm hval
  simpa [processValue_pyStrip tbl avail tr val] using h

/-- C9 witness: a protected value padded with whitespace, with translation
available, still comes out stripped. -/
theorem c9_value_stripped_witness :
    translate_xml_strings exTbl true (fun _ => some ("IGNORED".toList))
        (elemL (" ".toList) ("b".toList) [] ("  %s items  ".toList) ++ [])
      = outOpen ++ ("b".toList ++ (outMid ++
          (processValue exTbl true (fun _ => some ("IGNORED".toList))
              (pyStripL ("  %s items  ".toList)) ++
            (closeTag ++ translate_xml_strings exTbl true (fun _ => some ("IGNORED".toList)) [])))) :=
  c9_value_stripped exTbl true (fun _ => some ("IGNORED".toList)) _ _ _ _ _
    (by decide) (by decide) (by decide) (by decide) (by decide) (by decide)

end Converter

namespace Converter

/-! ## Claims C5, C6, C10 -/

/-- C5 (counterexample): a bare directory output argument yields
`<dir>/<stem>_translated.txt` — not `<dir>/<stem>_simplified.<ext>`: the
marker is `_translated` and the extension is always `.txt`.  Moreover a PDF
input does not honour an extensioned output argument exactly: its extension is
forced to `.txt`. -/
theorem c5_not_simplified :
    process_single_file_output ("a.xml".toList) ("out".toList)
      = "out/a_translated.txt".toList ∧
    "out/a_translated.txt".toList ≠ "out/a_simplified.xml".toList ∧
    written_output_path ("b.pdf".toList) ("o.xml".toList) = "o.txt".toList ∧
    "o.txt".toList ≠ ("o.xml".toList : List Char) := by
  decide

/-- C5 (amended): for a single-file run, an output argument whose final
component contains a dot is used exactly as the output path (for non-PDF
inputs), while a bare directory name yields
`<dir>/<stem>_translated.txt` — the `_translated` marker and a fixed `.txt`
extension, the input's extension is not preserved. -/
theorem c5_output_rules (input outArg : List Char) :
    ((pathNameL outArg).contains '.' = true →
      process_single_file_output input outArg = outArg) ∧
    ((pathNameL outArg).contains '.' = false →
      process_single_file_output input outArg
        = outArg ++ '/' :: (pathStemL input ++ "_translated".toList ++ ".txt".toList)) := by
  constructor <;> intro h
  · unfold process_single_file_output
    rw [if_pos h]
  · unfold process_single_file_output
    rw [if_neg (show ¬ ((pathNameL outArg).contains '.' = true) by rw [h]; simp)]

/-- C5 witness: both branches at concrete arguments. -/
theorem c5_output_rules_witness :
    process_single_file_output ("a.xml".toList) ("res/out.xml".toList) = "res/out.xml".toList ∧
    process_single_file_output ("a.xml".toList) ("out".toList)
      = "out".toList ++ '/' :: (pathStemL ("a.xml".toList) ++ "_translated".toList ++ ".txt".toList) :=
  ⟨(c5_output_rules ("a.xml".toList) ("res/out.xml".toList)).1 (by decide),
   (c5_output_rules ("a.xml".toList) ("out".toList)).2 (by decide)⟩

/-- C6 (counterexample): an unsupported file is excluded from the batch by the
`rglob` suffix filter before `process_single_file` ever sees it, so no
per-file skip diagnostic is produced for it (the skip branch that prints one
lives in `process_single_file` and is unreachable from a batch). -/
theorem c6_silent_skip :
    batch_process (["a.bin".toList]) = [] ∧
    process_single_file_action ("a.bin".toList) = FileAction.skipUnsupported := by
  decide

theorem action_of_supported (f : List Char) (h : supportedFile f = true) :
    process_single_file_action f ≠ FileAction.skipUnsupported := by
  unfold supportedFile at h
  have hmem : strLowerL (pathSuffixL f) ∈ supportedExts := List.elem_iff.mp h
  unfold process_single_file_action
  simp only [supportedExts, List.mem_cons, List.not_mem_nil, or_false] at hmem
  rcases hmem with h1 | h1 | h1 | h1 | h1 | h1 <;> rw [h1] <;> decide

/-- C6 (amended): in a batch run, files with an unsupported extension are
silently excluded — they never appear in the per-file processing at all, so no
entry (and no per-file diagnostic) exists for them; every supported file is
processed with a non-skip action; and the batch is a total function, so no
file aborts it. -/
theorem c6_batch_filter (all : List (List Char)) :
    (∀ f ∈ all, supportedFile f = false → ∀ a, (f, a) ∉ batch_process all) ∧
    (∀ f ∈ all, supportedFile f = true →
      (f, process_single_file_action f) ∈ batch_process all) ∧
    (∀ fa ∈ batch_process all, fa.2 ≠ FileAction.skipUnsupported) := by
  refine ⟨?_, ?_, ?_⟩
  · intro f _ hsup a hmem
    unfold batch_process at hmem
    obtain ⟨g, hg, heq⟩ := List.mem_map.mp hmem
    obtain ⟨_, hg2⟩ := List.mem_filter.mp hg
    injection heq with he1 he2
    subst he1
    rw [hsup] at hg2
    simp at hg2
  · intro f hf hsup
    unfold batch_process
    exact List.mem_map_of_mem _ (List.mem_filter.mpr ⟨hf, hsup⟩)
  · intro fa hmem
    unfold batch_process at hmem
    obtain ⟨g, hg, heq⟩ := List.mem_map.mp hmem
    obtain ⟨_, hg2⟩ := List.mem_filter.mp hg
    subst heq
    exact action_of_supported g hg2

/-- C6 witness: a batch over a supported and an unsupported file. -/
theorem c6_batch_filter_witness :
    (∀ a, (("b.bin".toList : List Char), a)
      ∉ batch_process (["a.txt".toList, "b.bin".toList])) ∧
    (("a.txt".toList : List Char), process_single_file_action ("a.txt".toList))
      ∈ batch_process (["a.txt".toList, "b.bin".toList]) :=
  ⟨fun a => (c6_batch_filter (["a.txt".toList, "b.bin".toList])).1 ("b.bin".toList)
      (by decide) (by decide) a,
   (c6_batch_filter (["a.txt".toList, "b.bin".toList])).2.1 ("a.txt".toList)
      (by decide) (by decide)⟩

/-- C10: with an input path but no output argument, `main` defaults the output
argument to `output`; a single input file then resolves to
`output/<stem>_translated.txt`, and every file of a directory batch resolves
under `output/` with the same naming rule. -/
theorem c10_default_output (prog input : List Char) (files : List (List Char)) :
    main_output_arg [prog, input] = some ("output".toList) ∧
    process_single_file_output input ("output".toList)
      = "output".toList ++ '/' :: (pathStemL input ++ "_translated".toList ++ ".txt".toList) ∧
    ∀ f ∈ files, process_single_file_output f ("output".toList)
      = "output".toList ++ '/' :: (pathStemL f ++ "_translated".toList ++ ".txt".toList) := by
  have hdot : ¬ ((pathNameL ("output".toList)).contains '.' = true) := by decide
  refine ⟨rfl, ?_, ?_⟩
  · unfold process_single_file_output
    rw [if_neg hdot]
  · intro f _
    unfold process_single_file_output
    rw [if_neg hdot]

/-- C10 witness: concrete program invocation and batch file. -/
theorem c10_default_output_witness :
    main_output_arg (["converter.py".toList, "a.txt".toList]) = some ("output".toList) ∧
    process_single_file_output ("a.txt".toList) ("output".toList)
      = "output".toList ++ '/' :: (pathStemL ("a.txt".toList) ++ "_translated".toList ++ ".txt".toList) ∧
    process_single_file_output ("b.xml".toList) ("output".toList)
      = "output".toList ++ '/' :: (pathStemL ("b.xml".toList) ++ "_translated".toList ++ ".txt".toList) :=
  ⟨(c10_default_output ("converter.py".toList) ("a.txt".toList) (["b.xml".toList])).1,
   (c10_default_output ("converter.py".toList) ("a.txt".toList) (["b.xml".toList])).2.1,
   (c10_default_output ("converter.py".toList) ("a.txt".toList) (["b.xml".toList])).2.2
     ("b.xml".toList) (by decide)⟩

end Converter
